import Mathlib

/-!
Verification of the mermaid-to-drawio core pipeline (mermaid_drawio.py).

The embedding mirrors the three core functions of the source file:
  * parse_mermaid   (lines 11-77)
  * compute_layout  (lines 80-131)
  * mermaid_to_drawio (lines 134-210)

Modelling conventions:
  * Python strings are Lean String; per-line scanning works on List Char.
  * The Python node set is modelled as an insertion-ordered duplicate-free
    List String (addNode inserts only when absent).  The layout output is
    order-independent in the places the source iterates the set, and the
    serializer's cell-id assignment follows the iteration order, which the
    model fixes to insertion order.
  * Python dicts whose indexing can raise KeyError (the in-degree table,
    the node-cell map) are association lists with Option-returning update
    and lookup; a raised KeyError is Option.none.
  * The Kahn queue loop runs on explicit (indegree, depth, queue) state
    with fuel nodes.length; each node enters the queue at most once, so
    the fuel suffices, and the theorems about the loop take the observed
    final state (including the leftover queue) as input.
  * splitlines is modelled as splitting on the newline character; the
    extra Unicode line separators Python also splits on do not affect
    any per-line property proved here, and a trailing empty fragment is
    skipped by the blank-line rule exactly as in the source.
  * The zlib raw-deflate and base64 steps are external library calls; the
    pipeline is parameterized by those two string codecs, and round-trip
    claims assume the codecs are lossless (left-invertible), which is the
    documented behaviour of both libraries.
-/

namespace MermaidDrawio

/-- An edge as produced by the parser: (source id, target id, label). -/
abbrev Edge := String × String × String

/-- Python str.isspace-style test used by strip and split. -/
def isSpace (c : Char) : Bool := c.isWhitespace

/-- Python str.strip: drop whitespace from both ends. -/
def pyStrip (s : List Char) : List Char :=
  ((s.dropWhile isSpace).reverse.dropWhile isSpace).reverse

/-- Python s.split(sep, 1) combined with the `sep in s` test: returns
the pieces around the first occurrence of sep, or none when sep does not
occur.  Only used with the nonempty separators "-->" and "--". -/
def splitFirst? (sep : List Char) : List Char → Option (List Char × List Char)
  | [] => none
  | c :: rest =>
    if sep.isPrefixOf (c :: rest) then some ([], (c :: rest).drop sep.length)
    else
      match splitFirst? sep rest with
      | some (a, b) => some (c :: a, b)
      | none => none

/-- Python str.split() with no argument: whitespace-separated words,
empty pieces dropped.  The accumulator holds the current word reversed. -/
def wordsAux : List Char → List Char → List (List Char)
  | [], cur => if cur = [] then [] else [cur.reverse]
  | c :: rest, cur =>
    if isSpace c then
      if cur = [] then wordsAux rest [] else cur.reverse :: wordsAux rest []
    else wordsAux rest (c :: cur)

/-- Python line.split(). -/
def pyWords (s : List Char) : List (List Char) := wordsAux s []

/-- Python str.upper (ASCII-faithful). -/
def pyUpper (s : List Char) : List Char := s.map Char.toUpper

/-- Result of parse_mermaid: the node set (insertion order), the edge
list in input order, and the direction string. -/
structure Flow where
  nodes : List String
  edges : List Edge
  direction : String
deriving Repr, DecidableEq

/-- Python set.add on the insertion-ordered node list. -/
def addNode (ns : List String) (n : String) : List String :=
  if n ∈ ns then ns else ns ++ [n]

/-- One iteration of the parser loop of parse_mermaid (lines 27-75):
strip the line, skip blanks, then classify as direction declaration,
edge line, or standalone node. -/
def parseLine (acc : Flow) (rawLine : List Char) : Flow :=
  let line := pyStrip rawLine
  if line = [] then acc
  else if "graph ".data.isPrefixOf line then
    match pyWords line with
    | _ :: dir :: _ => { acc with direction := String.mk (pyUpper dir) }
    | _ => acc
  else
    match splitFirst? "-->".data line with
    | some (l, r) =>
      let left := pyStrip l
      let right := pyStrip r
      let sl :=
        match splitFirst? "--".data left with
        | some (a, b) => (pyStrip a, pyStrip b)
        | none => (left, ([] : List Char))
      let src := String.mk sl.1
      let tgt := String.mk right
      let lab := String.mk sl.2
      { acc with
          nodes := addNode (addNode acc.nodes src) tgt
          edges := acc.edges ++ [(src, tgt, lab)] }
    | none => { acc with nodes := addNode acc.nodes (String.mk line) }

/-- parse_mermaid (lines 11-77): fold the line classifier over the
newline-split input, starting from empty graph and direction "TD". -/
def parse_mermaid (input : String) : Flow :=
  (input.data.splitOn '\n').foldl parseLine ⟨[], [], "TD"⟩

/-! ## Layout engine (compute_layout, lines 80-131) -/

/-- The dict update indeg[t] += 1 (line 93): bump the first entry with
key t, or fail (KeyError) when the key is absent. -/
def bump : List (String × Int) → String → Option (List (String × Int))
  | [], _ => none
  | (k, v) :: rest, t =>
    if k = t then some ((k, v + 1) :: rest)
    else
      match bump rest t with
      | some rest' => some ((k, v) :: rest')
      | none => none

/-- Lines 90-93: indeg = {nid: 0 for nid in nodes} followed by one
indeg[t] += 1 per edge; none models the KeyError raised when an edge
target is not a node. -/
def buildIndeg (nodes : List String) (edges : List Edge) :
    Option (List (String × Int)) :=
  edges.foldlM (fun il e => bump il e.2.1) (nodes.map (fun n => (n, (0 : Int))))

/-- Lines 89-92: adj = defaultdict(list) with adj[s].append(t) per edge. -/
def adjOf (edges : List Edge) : String → List String :=
  edges.foldl (fun g e => fun u => if u = e.1 then g u ++ [e.2.1] else g u)
    (fun _ => [])

/-- State of the Kahn loop: in-degrees, depths, and the pending queue.
Both maps are total functions; compute_layout only runs the loop after
buildIndeg succeeded, in which case every key the Python dicts are
indexed at is present, so total functions are a faithful view. -/
structure KS where
  f : String → Int
  d : String → Nat
  q : List String

/-- Lines 103-107, one child: indeg[child] -= 1; when it reaches zero,
depth[child] = depth[current] + 1 and child is appended to the queue. -/
def kahnChild (current : String) (st : KS) (child : String) : KS :=
  let n := st.f child - 1
  let f' := fun u => if u = child then n else st.f u
  if n = 0 then
    { f := f'
      d := fun u => if u = child then st.d current + 1 else st.d u
      q := st.q ++ [child] }
  else { st with f := f' }

/-- Lines 101-107, the while loop, with explicit fuel: pop the head of
the queue and process its adjacency list.  compute_layout supplies fuel
nodes.length, which is enough because each node is enqueued at most
once. -/
def kahnRun (adj : String → List String) : Nat → KS → KS
  | 0, st => st
  | fuel + 1, st =>
    match st.q with
    | [] => st
    | current :: rest =>
      kahnRun adj fuel ((adj current).foldl (kahnChild current) ⟨st.f, st.d, rest⟩)

/-- Lexicographic comparison of char lists by code point, the order
Python uses on strings. -/
def lexLe : List Char → List Char → Bool
  | [], _ => true
  | _ :: _, [] => false
  | a :: as, b :: bs =>
    if a.toNat < b.toNat then true
    else if b.toNat < a.toNat then false
    else lexLe as bs

/-- Python string comparison a <= b. -/
def strLe (a b : String) : Bool := lexLe a.data b.data

/-- The sort key of line 110: Python tuple order on (depth[x], x). -/
def nodeLe (d : String → Nat) (a b : String) : Bool :=
  decide (d a < d b) || (d a == d b && strLe a b)

/-- The sort of line 110 as a relation for insertionSort.  Ties in the
key (depth[x], x) force the two list elements to be the same string, so
every sort that is correct for this relation returns the same list;
insertionSort is chosen because its recursion is kernel-reducible. -/
def nodeR (d : String → Nat) (a b : String) : Prop := nodeLe d a b = true

instance (d : String → Nat) : DecidableRel (nodeR d) := fun a b =>
  inferInstanceAs (Decidable (nodeLe d a b = true))

/-- Lines 120-127: coordinates from depth and offset-in-layer. -/
def posOf (direction : String) (dep off : Nat) : Nat × Nat :=
  if direction = "LR" then (dep * 200, off * 120) else (off * 200, dep * 200)

/-- Lines 113-129: walk the sorted nodes tracking layer_counts
(a defaultdict starting every layer at 0) and record coordinates in
placement order. -/
def placeAux (direction : String) (d : String → Nat) :
    (Nat → Nat) → List String → List (String × Nat × Nat)
  | _, [] => []
  | lc, n :: rest =>
    (n, posOf direction (d n) (lc (d n))) ::
      placeAux direction d (fun k => if k = d n then lc k + 1 else lc k) rest

/-- The state the Kahn loop starts from, given the successfully built
in-degree table il: total-function views of the indeg and depth dicts
(lines 97-98) and the seed queue of indegree-0 nodes (line 97). -/
def initKS (il : List (String × Int)) : KS :=
  { f := fun u => ((il.lookup u).getD 0)
    d := fun _ => 0
    q := (il.filter (fun p => p.2 == 0)).map Prod.fst }

/-- The state of the Kahn loop after the while loop of lines 101-107
has drained (fuel nodes.length suffices since every node is enqueued at
most once). -/
def layoutState (nodes : List String) (edges : List Edge)
    (il : List (String × Int)) : KS :=
  kahnRun (adjOf edges) nodes.length (initKS il)

/-- compute_layout (lines 80-131).  none models the KeyError raised on
line 93 when an edge target is missing from the node set. -/
def compute_layout (nodes : List String) (edges : List Edge)
    (direction : String) : Option (List (String × Nat × Nat)) :=
  if nodes.isEmpty then some []
  else
    match buildIndeg nodes edges with
    | none => none
    | some il =>
      some (placeAux direction (layoutState nodes edges il).d (fun _ => 0)
        (List.insertionSort (nodeR (layoutState nodes edges il).d) nodes))

/-- The depth map the layout sorts and places by (depth dict of lines
98-107); constantly 0 when the in-degree build would fail. -/
def layoutDepth (nodes : List String) (edges : List Edge) : String → Nat :=
  match buildIndeg nodes edges with
  | none => fun _ => 0
  | some il => (layoutState nodes edges il).d

/-- The stable placement order of line 110: nodes sorted by the key
(depth, node id). -/
def sortedNodes (nodes : List String) (edges : List Edge) : List String :=
  List.insertionSort (nodeR (layoutDepth nodes edges)) nodes

/-- The per-depth counter value a node receives on line 117: the number
of nodes of the same depth placed before it. -/
def layerOffset (nodes : List String) (edges : List Edge) (n : String) : Nat :=
  ((sortedNodes nodes edges).take ((sortedNodes nodes edges).indexOf n)).countP
    (fun m => layoutDepth nodes edges m == layoutDepth nodes edges n)

/-! ## Serializer (mermaid_to_drawio, lines 134-210) -/

/-- A cell of the diagram document, in the three shapes the source
builds: the two foundational layer cells, vertex cells with geometry,
and edge cells with a relative geometry marker. -/
inductive Cell where
  | layer (id : String) (parent : Option String)
  | vertex (id value style parent : String) (x y w h : Nat)
  | edgeC (id value style parent source target : String)
deriving Repr, DecidableEq

/-- Line 166: the uniform node style. -/
def nodeStyle : String := "rounded=1;whiteSpace=wrap;html=1;"

/-- Line 191: the uniform edge style. -/
def edgeStyle : String :=
  "edgeStyle=orthogonalEdgeStyle;rounded=0;orthogonalLoop=1;jettySize=auto;html=1;"

/-- Lines 155-161: node_id_map, assigning cell ids "2", "3", ... to the
nodes in iteration order. -/
def cellIdMap (nodes : List String) : List (String × String) :=
  nodes.enum.map (fun p => (p.2, toString (2 + p.1)))

/-- Lines 158-182: one vertex cell per node, with the coords.get
default of (0, 0) when a node has no computed position. -/
def nodeCells (nodes : List String) (coords : List (String × Nat × Nat)) :
    List Cell :=
  nodes.enum.map (fun p =>
    let xy := (coords.lookup p.2).getD (0, 0)
    Cell.vertex (toString (2 + p.1)) p.2 nodeStyle "1" xy.1 xy.2 120 60)

/-- Lines 185-204: one edge cell per edge, ids continuing the counter
after the node cells; none models the KeyError of node_id_map[s] or
node_id_map[t] when an endpoint is not a key of the node-cell map. -/
def edgeCells (nodes : List String) (edges : List Edge) : Option (List Cell) :=
  edges.enum.mapM (fun p =>
    match (cellIdMap nodes).lookup p.2.1, (cellIdMap nodes).lookup p.2.2.1 with
    | some sc, some tc =>
      some (Cell.edgeC (toString (2 + nodes.length + p.1)) p.2.2.2 edgeStyle "1"
        sc tc)
    | _, _ => none)

/-- Lines 145-204: the document tree under the root element, in build
order: layer cells "0" and "1", then all node cells, then all edge
cells. -/
def buildDoc (nodes : List String) (edges : List Edge)
    (coords : List (String × Nat × Nat)) : Option (List Cell) :=
  match edgeCells nodes edges with
  | none => none
  | some ec =>
    some (Cell.layer "0" none :: Cell.layer "1" (some "0") ::
      (nodeCells nodes coords ++ ec))

/-- Attribute escaping performed by the XML serializer. -/
def escAttr (s : String) : String :=
  String.join (s.data.map (fun c =>
    if c = '&' then "&amp;"
    else if c = '<' then "&lt;"
    else if c = '>' then "&gt;"
    else if c = '"' then "&quot;"
    else if c = '\t' then "&#09;"
    else if c = '\n' then "&#10;"
    else if c = '\r' then "&#13;"
    else String.mk [c]))

/-- One rendered attribute. -/
def attrStr (k v : String) : String := " " ++ k ++ "=\"" ++ escAttr v ++ "\""

/-- The textual markup of one cell, attributes in the insertion order
the source uses. -/
def cellXml : Cell → String
  | .layer i p =>
    "<mxCell" ++ attrStr "id" i ++
      (match p with | some pr => attrStr "parent" pr | none => "") ++ " />"
  | .vertex i v st pr x y w h =>
    "<mxCell" ++ attrStr "id" i ++ attrStr "value" v ++ attrStr "style" st ++
      attrStr "parent" pr ++ attrStr "vertex" "1" ++ "><mxGeometry" ++
      attrStr "as" "geometry" ++ attrStr "x" (toString x) ++
      attrStr "y" (toString y) ++ attrStr "width" (toString w) ++
      attrStr "height" (toString h) ++ " /></mxCell>"
  | .edgeC i v st pr s t =>
    "<mxCell" ++ attrStr "id" i ++ attrStr "value" v ++ attrStr "style" st ++
      attrStr "parent" pr ++ attrStr "source" s ++ attrStr "target" t ++
      attrStr "edge" "1" ++ "><mxGeometry" ++ attrStr "as" "geometry" ++
      attrStr "relative" "1" ++ " /></mxCell>"

/-- Line 207: ET.tostring with encoding utf-8 (which, being utf-8 with
the default xml_declaration=None, emits no XML declaration). -/
def xmlString (cells : List Cell) : String :=
  "<mxfile><diagram><mxGraphModel><root>" ++
    String.join (cells.map cellXml) ++
    "</root></mxGraphModel></diagram></mxfile>"

/-- mermaid_to_drawio (lines 134-210).  The two external codec calls of
lines 208-209 (zlib raw deflate, base64 encode) are passed in as string
transformers; none models a KeyError escaping from layout or from the
edge-cell loop. -/
def mermaid_to_drawio (deflate b64encode : String → String)
    (mermaid_code : String) : Option String :=
  let fl := parse_mermaid mermaid_code
  match compute_layout fl.nodes fl.edges fl.direction with
  | none => none
  | some coords =>
    match buildDoc fl.nodes fl.edges coords with
    | none => none
    | some cells => some (b64encode (deflate (xmlString cells)))

/-- Vertex-cell test, for counting. -/
def Cell.isVertex : Cell → Bool
  | .vertex _ _ _ _ _ _ _ _ => true
  | _ => false

/-- Edge-cell test, for counting. -/
def Cell.isEdgeCell : Cell → Bool
  | .edgeC _ _ _ _ _ _ => true
  | _ => false

/-- The id attribute of a cell. -/
def Cell.cid : Cell → String
  | .layer i _ => i
  | .vertex i _ _ _ _ _ _ _ => i
  | .edgeC i _ _ _ _ _ => i

/-- The parser invariant of claim C1: every recorded edge has both of
its endpoints in the node set. -/
def EdgeOk (fl : Flow) : Prop :=
  ∀ e ∈ fl.edges, e.1 ∈ fl.nodes ∧ e.2.1 ∈ fl.nodes

/-! ## Counting infrastructure for the Kahn loop

countPending E P t is the number of edges of E into t whose source is
not in the processed list P; the loop maintains indeg t equal to it. -/

def countPending : List Edge → List String → String → Nat
  | [], _, _ => 0
  | e :: es, P, t =>
    (if e.1 ∉ P ∧ e.2.1 = t then 1 else 0) + countPending es P t

/-- The number of edges of E into t. -/
def countTargets : List Edge → String → Nat
  | [], _ => 0
  | e :: es, t => (if e.2.1 = t then 1 else 0) + countTargets es t

/-- The number of edges of E from c into t. -/
def countFrom : List Edge → String → String → Nat
  | [], _, _ => 0
  | e :: es, c, t =>
    (if e.1 = c ∧ e.2.1 = t then 1 else 0) + countFrom es c t

/-! ## The children fold of one pop

Mid f0 d0 current rest cp m: after the children-processing loop of
lines 103-107 has consumed the prefix cp of adj[current], starting from
indegrees f0, depths d0 and queue rest, the state is m.  news is the
list of children pushed so far. -/

def Mid (f0 : String → Int) (d0 : String → Nat) (current : String)
    (rest : List String) (cp : List String) (m : KS) : Prop :=
  (∀ t, m.f t = f0 t - (cp.count t : Int)) ∧
  ∃ news, m.q = rest ++ news ∧ news.Nodup ∧
    (∀ u ∈ news, (1 : Int) ≤ f0 u ∧ m.d u = d0 current + 1 ∧ m.f u ≤ 0) ∧
    (∀ u, u ∉ news → m.d u = d0 u) ∧
    (∀ u, m.f u ≤ 0 → (1 : Int) ≤ f0 u → u ∈ news)

/-! ## The loop invariant of the Kahn pass

P is the (ghost) list of already-popped nodes.  The invariant ties the
indegree map to the count of edges whose source has not been processed,
and records the BFS shape of the queue. -/

structure Inv (E : List Edge) (P : List String) (st : KS) : Prop where
  pend : ∀ t, st.f t = (countPending E P t : Int)
  mono : st.q.Pairwise (fun a b => st.d a ≤ st.d b)
  tight : ∀ a ∈ st.q, ∀ b ∈ st.q, st.d a ≤ st.d b + 1
  nodup : st.q.Nodup
  fresh : ∀ u ∈ st.q, u ∉ P
  qzero : ∀ u ∈ st.q, st.f u = 0
  pzero : ∀ u ∈ P, st.f u = 0

/-- One edge-cell construction step of lines 185-204. -/
def edgeCellOf (nodes : List String) (p : Nat × Edge) : Option Cell :=
  match (cellIdMap nodes).lookup p.2.1, (cellIdMap nodes).lookup p.2.2.1 with
  | some sc, some tc =>
    some (Cell.edgeC (toString (2 + nodes.length + p.1)) p.2.2.2 edgeStyle "1"
      sc tc)
  | _, _ => none

/-! ## Parser lemmas -/

theorem addNode_sub {ns : List String} {m : String} (x : String) (h : m ∈ ns) :
    m ∈ addNode ns x := by
  unfold addNode
  split
  · exact h
  · exact List.mem_append_left _ h

theorem mem_addNode (ns : List String) (x : String) : x ∈ addNode ns x := by
  unfold addNode
  split
  · assumption
  · exact List.mem_append_right _ (List.mem_singleton.mpr rfl)

theorem addNode_nodup {ns : List String} (h : ns.Nodup) (x : String) :
    (addNode ns x).Nodup := by
  unfold addNode
  split
  · exact h
  · refine List.Nodup.append h (List.nodup_singleton x) ?_
    intro a ha hx
    rename_i hnx
    rw [List.mem_singleton] at hx
    exact hnx (hx ▸ ha)

/-- Every call of parseLine either leaves the accumulator unchanged,
only changes the direction, records one edge with both endpoints
inserted as nodes, or inserts one standalone node. -/
theorem parseLine_cases (acc : Flow) (l : List Char) :
    parseLine acc l = acc ∨
    (∃ dir, parseLine acc l = { acc with direction := dir }) ∨
    (∃ s t lab, parseLine acc l =
      { acc with nodes := addNode (addNode acc.nodes s) t,
                 edges := acc.edges ++ [(s, t, lab)] }) ∨
    (∃ n, parseLine acc l = { acc with nodes := addNode acc.nodes n }) := by
  unfold parseLine
  dsimp only
  split
  · exact Or.inl rfl
  · split
    · split
      · exact Or.inr (Or.inl ⟨_, rfl⟩)
      · exact Or.inl rfl
    · split
      · exact Or.inr (Or.inr (Or.inl ⟨_, _, _, rfl⟩))
      · exact Or.inr (Or.inr (Or.inr ⟨_, rfl⟩))


theorem parseLine_edgeOk {acc : Flow} (h : EdgeOk acc) (l : List Char) :
    EdgeOk (parseLine acc l) := by
  rcases parseLine_cases acc l with heq | ⟨dir, heq⟩ | ⟨s, t, lab, heq⟩ | ⟨n, heq⟩ <;>
    rw [heq]
  · exact h
  · exact h
  · intro e he
    rcases List.mem_append.mp he with hold | hnew
    · exact ⟨addNode_sub t (addNode_sub s (h e hold).1),
        addNode_sub t (addNode_sub s (h e hold).2)⟩
    · rw [List.mem_singleton] at hnew
      subst hnew
      exact ⟨addNode_sub t (mem_addNode acc.nodes s), mem_addNode _ t⟩
  · intro e he
    exact ⟨addNode_sub n (h e he).1, addNode_sub n (h e he).2⟩

theorem foldl_parseLine_edgeOk (ls : List (List Char)) :
    ∀ acc : Flow, EdgeOk acc → EdgeOk (ls.foldl parseLine acc) := by
  induction ls with
  | nil => intro acc h; exact h
  | cons l rest ih =>
    intro acc h
    exact ih (parseLine acc l) (parseLine_edgeOk h l)

/-- Shared invariant: the node list of a parse result is duplicate-free
(it models a Python set). -/
theorem parseLine_nodup {acc : Flow} (h : acc.nodes.Nodup) (l : List Char) :
    (parseLine acc l).nodes.Nodup := by
  rcases parseLine_cases acc l with heq | ⟨dir, heq⟩ | ⟨s, t, lab, heq⟩ | ⟨n, heq⟩ <;>
    rw [heq]
  · exact h
  · exact h
  · exact addNode_nodup (addNode_nodup h s) t
  · exact addNode_nodup h n

theorem foldl_parseLine_nodup (ls : List (List Char)) :
    ∀ acc : Flow, acc.nodes.Nodup → (ls.foldl parseLine acc).nodes.Nodup := by
  induction ls with
  | nil => intro acc h; exact h
  | cons l rest ih =>
    intro acc h
    exact ih (parseLine acc l) (parseLine_nodup h l)

theorem parse_mermaid_edgeOk (input : String) : EdgeOk (parse_mermaid input) :=
  foldl_parseLine_edgeOk _ _ (by intro e he; simp at he)

theorem parse_mermaid_nodup (input : String) :
    (parse_mermaid input).nodes.Nodup :=
  foldl_parseLine_nodup _ _ (by simp)


theorem countPending_nil (E : List Edge) (t : String) :
    countPending E [] t = countTargets E t := by
  induction E with
  | nil => rfl
  | cons e es ih => simp [countPending, countTargets, ih]

theorem adjOf_eq (E : List Edge) (u : String) :
    adjOf E u = (E.filter (fun e => decide (e.1 = u))).map (fun e => e.2.1) := by
  unfold adjOf
  suffices h : ∀ (g : String → List String),
      (E.foldl (fun g e => fun v => if v = e.1 then g v ++ [e.2.1] else g v) g) u =
        g u ++ (E.filter (fun e => decide (e.1 = u))).map (fun e => e.2.1) by
    simpa using h (fun _ => [])
  induction E with
  | nil => intro g; simp
  | cons e es ih =>
    intro g
    rw [List.foldl_cons, ih, List.filter_cons]
    by_cases hu : e.1 = u
    · simp [hu]
    · have : u ≠ e.1 := fun h => hu h.symm
      simp [hu, this]

/-- The multiplicity of t among the children of c is the number of
edges c → t. -/
theorem adjOf_count (E : List Edge) (c t : String) :
    (adjOf E c).count t = countFrom E c t := by
  rw [adjOf_eq]
  induction E with
  | nil => rfl
  | cons e es ih =>
    rw [List.filter_cons]
    by_cases hsc : e.1 = c
    · by_cases htt : e.2.1 = t
      · simp [hsc, htt, countFrom, List.count_cons, ih]
        omega
      · simp [hsc, htt, countFrom, List.count_cons, ih, Ne.symm htt]
    · have hand : ¬(e.1 = c ∧ e.2.1 = t) := fun hh => hsc hh.1
      simp [hsc, countFrom, hand, ih]

/-- Processing a new node c removes exactly the edges sourced at c from
the pending count of every target. -/
theorem countPending_cons (E : List Edge) (P : List String) (c t : String)
    (hc : c ∉ P) :
    countPending E P t = countPending E (c :: P) t + countFrom E c t := by
  induction E with
  | nil => rfl
  | cons e es ih =>
    simp only [countPending, countFrom]
    have hsplit : e.1 ∈ c :: P ↔ e.1 = c ∨ e.1 ∈ P := List.mem_cons
    by_cases hsc : e.1 = c <;> by_cases hsp : e.1 ∈ P <;>
      by_cases htt : e.2.1 = t <;>
      simp only [hsplit, hsc, hsp, htt] <;> simp_all <;> omega

theorem countFrom_le (E : List Edge) (P : List String) (c t : String)
    (hc : c ∉ P) : countFrom E c t ≤ countPending E P t := by
  rw [countPending_cons E P c t hc]
  omega

/-! ### buildIndeg lemmas -/


theorem lookup_cons_eq {β : Type} {k u : String} {v : β} {rest : List (String × β)}
    (h : u = k) : List.lookup u ((k, v) :: rest) = some v := by
  rw [List.lookup_cons]
  have hb : (u == k) = true := by simp [h]
  rw [hb]

theorem lookup_cons_ne {β : Type} {k u : String} {v : β} {rest : List (String × β)}
    (h : ¬u = k) : List.lookup u ((k, v) :: rest) = List.lookup u rest := by
  rw [List.lookup_cons]
  have hb : (u == k) = false := by simp [h]
  rw [hb]

theorem bump_isSome (il : List (String × Int)) (t : String) :
    (bump il t).isSome ↔ t ∈ il.map Prod.fst := by
  induction il with
  | nil => simp [bump]
  | cons kv rest ih =>
    obtain ⟨k, v⟩ := kv
    unfold bump
    by_cases h : k = t
    · simp [h]
    · have h' : t ≠ k := fun hh => h hh.symm
      simp only [h, if_false]
      cases hb : bump rest t with
      | none =>
        rw [hb] at ih
        simpa [h'] using ih
      | some rest' =>
        rw [hb] at ih
        simpa [h'] using ih

theorem bump_keys {il il' : List (String × Int)} {t : String}
    (h : bump il t = some il') : il'.map Prod.fst = il.map Prod.fst := by
  induction il generalizing il' with
  | nil => simp [bump] at h
  | cons kv rest ih =>
    obtain ⟨k, v⟩ := kv
    unfold bump at h
    by_cases hk : k = t
    · rw [if_pos hk] at h
      cases h
      simp
    · rw [if_neg hk] at h
      cases hb : bump rest t with
      | none => rw [hb] at h; cases h
      | some rest' =>
        rw [hb] at h
        cases h
        simp [ih hb]

theorem bump_lookupD {il il' : List (String × Int)} {t : String}
    (h : bump il t = some il') (u : String) :
    (il'.lookup u).getD 0 =
      (il.lookup u).getD 0 + if u = t then 1 else 0 := by
  induction il generalizing il' with
  | nil => simp [bump] at h
  | cons kv rest ih =>
    obtain ⟨k, v⟩ := kv
    unfold bump at h
    by_cases hk : k = t
    · rw [if_pos hk] at h
      cases h
      by_cases hu : u = k
      · rw [lookup_cons_eq hu, lookup_cons_eq hu]
        simp [hu, hk]
      · rw [lookup_cons_ne hu, lookup_cons_ne hu]
        have hut : ¬u = t := fun he => hu (he.trans hk.symm)
        simp [hut]
    · rw [if_neg hk] at h
      cases hb : bump rest t with
      | none => rw [hb] at h; cases h
      | some rest' =>
        rw [hb] at h
        cases h
        by_cases hu : u = k
        · have hut : ¬u = t := fun he => hk ((hu.symm.trans he))
          rw [lookup_cons_eq hu, lookup_cons_eq hu]
          simp [hut]
        · rw [lookup_cons_ne hu, lookup_cons_ne hu, ih hb]


theorem midInit (f0 : String → Int) (d0 : String → Nat) (current : String)
    (rest : List String) : Mid f0 d0 current rest [] ⟨f0, d0, rest⟩ := by
  refine ⟨by intro t; simp, [], by simp, List.nodup_nil, by simp, fun u _ => rfl, ?_⟩
  intro u h0 h1
  have h2 : f0 u ≤ 0 := h0
  omega

theorem midStep {f0 : String → Int} {d0 : String → Nat} {current : String}
    {rest cp : List String} {m : KS} (c : String)
    (hfcur : f0 current ≤ 0)
    (h : Mid f0 d0 current rest cp m) :
    Mid f0 d0 current rest (cp ++ [c]) (kahnChild current m c) := by
  obtain ⟨hf, news, hq, hnd, hprops, hout, hpushed⟩ := h
  have hcurnews : current ∉ news := by
    intro hcn
    have := (hprops current hcn).1
    omega
  have hdcur : m.d current = d0 current := hout current hcurnews
  have hcount : ∀ t : String, ((cp ++ [c]).count t : Int) =
      (cp.count t : Int) + if t = c then 1 else 0 := by
    intro t
    by_cases htc : t = c <;> simp [htc, List.count_append]
  unfold kahnChild
  dsimp only
  split
  · -- push branch: m.f c - 1 = 0
    rename_i hpush
    have hfc1 : m.f c = 1 := by omega
    have hcnews : c ∉ news := by
      intro hcn
      have := (hprops c hcn).2.2
      omega
    refine ⟨?_, news ++ [c], ?_, ?_, ?_, ?_, ?_⟩
    · intro t
      by_cases htc : t = c
      · subst htc
        have h2 := hf t
        rw [hcount]
        simp only [if_pos rfl]
        simp
        omega
      · rw [hcount]
        simp only [htc, if_neg htc, if_false]
        have := hf t
        omega
    · rw [hq, List.append_assoc]
    · exact List.Nodup.append hnd (List.nodup_singleton c)
        (by intro a ha hb; rw [List.mem_singleton] at hb; exact hcnews (hb ▸ ha))
    · intro u hu
      rcases List.mem_append.mp hu with hun | huc
      · have hp := hprops u hun
        have hunec : u ≠ c := fun he => hcnews (he ▸ hun)
        refine ⟨hp.1, ?_, ?_⟩
        · simp only [if_neg hunec]
          exact hp.2.1
        · simp only [if_neg hunec]
          exact hp.2.2
      · rw [List.mem_singleton] at huc
        subst huc
        refine ⟨?_, ?_, ?_⟩
        · have h2 := hf u
          omega
        · simp [hdcur]
        · simp
          omega
    · intro u hu
      have hun : u ∉ news := fun hh => hu (List.mem_append_left _ hh)
      have hunec : u ≠ c := fun he => hu (List.mem_append_right _ (he ▸ List.mem_singleton.mpr rfl))
      simp only [if_neg hunec]
      exact hout u hun
    · intro u hle h1
      by_cases huc : u = c
      · exact List.mem_append_right _ (huc ▸ List.mem_singleton.mpr rfl)
      · simp only [if_neg huc] at hle
        exact List.mem_append_left _ (hpushed u hle h1)
  · -- no-push branch
    rename_i hnopush
    refine ⟨?_, news, hq, hnd, ?_, hout, ?_⟩
    · intro t
      by_cases htc : t = c
      · subst htc
        rw [hcount]
        simp only [if_pos rfl]
        have h2 := hf t
        simp
        omega
      · rw [hcount]
        simp only [htc, if_neg htc, if_false]
        have := hf t
        omega
    · intro u hun
      have hp := hprops u hun
      refine ⟨hp.1, hp.2.1, ?_⟩
      by_cases huc : u = c
      · subst huc
        simp only [if_pos rfl]
        omega
      · simp only [if_neg huc]
        exact hp.2.2
    · intro u hle h1
      by_cases huc : u = c
      · subst huc
        simp only [if_pos rfl] at hle
        have hmc : m.f u ≤ 0 := by
          rcases lt_or_le (m.f u) 1 with hlt | hge
          · omega
          · exfalso
            have : m.f u - 1 = 0 ∨ 1 ≤ m.f u - 1 := by omega
            rcases this with h0 | hpos
            · exact hnopush h0
            · omega
        exact hpushed u hmc h1
      · simp only [if_neg huc] at hle
        exact hpushed u hle h1

theorem midFold {f0 : String → Int} {d0 : String → Nat} {current : String}
    {rest : List String} (hfcur : f0 current ≤ 0) :
    ∀ (cs cp : List String) (m : KS),
      Mid f0 d0 current rest cp m →
      Mid f0 d0 current rest (cp ++ cs) (cs.foldl (kahnChild current) m) := by
  intro cs
  induction cs with
  | nil => intro cp m h; simpa using h
  | cons c cs ih =>
    intro cp m h
    rw [List.foldl_cons, show cp ++ c :: cs = (cp ++ [c]) ++ cs by simp]
    exact ih _ _ (midStep c hfcur h)


/-- An edge into t from an unprocessed source keeps t pending. -/
theorem countPending_pos {E : List Edge} {P : List String} {s t lab : String}
    (hmem : (s, t, lab) ∈ E) (hs : s ∉ P) : 1 ≤ countPending E P t := by
  induction E with
  | nil => cases hmem
  | cons e es ih =>
    rcases List.mem_cons.mp hmem with he | he
    · subst he
      simp only [countPending]
      simp only [hs, not_false_iff, true_and, and_true, eq_self_iff_true, if_true]
      omega
    · simp only [countPending]
      have := ih he
      omega

/-- Popping the head of the queue and processing its children preserves
the invariant (with the popped node marked processed) and yields the
facts the depth theorems need: depths of settled nodes are unchanged,
every queued depth is at least the popped depth, and a node whose
indegree reached zero in this step is queued at depth one more than the
popped node. -/
theorem popInv {E : List Edge} {P : List String} {st st₂ : KS}
    {current : String} {rest : List String}
    (hq : st.q = current :: rest)
    (hst₂ : st₂ = (adjOf E current).foldl (kahnChild current) ⟨st.f, st.d, rest⟩)
    (hinv : Inv E P st) :
    Inv E (current :: P) st₂ ∧
    (∀ u, st.f u ≤ 0 → st₂.d u = st.d u) ∧
    (∀ u ∈ st₂.q, st.d current ≤ st₂.d u) ∧
    (∀ t, st₂.f t = 0 → st.f t ≠ 0 → t ∈ st₂.q ∧ st₂.d t = st.d current + 1) ∧
    (∀ u, st.f u = 0 → st₂.f u = 0) ∧
    (∀ u, st₂.f u ≠ 0 → st₂.d u = st.d u) := by
  have hcur_mem : current ∈ st.q := by rw [hq]; exact List.mem_cons_self _ _
  have hcur0 : st.f current = 0 := hinv.qzero current hcur_mem
  have hcurP : current ∉ P := hinv.fresh current hcur_mem
  have hmid : Mid st.f st.d current rest ([] ++ adjOf E current) st₂ := by
    rw [hst₂]
    exact midFold (by rw [hcur0]) (adjOf E current) [] ⟨st.f, st.d, rest⟩
      (midInit st.f st.d current rest)
  rw [List.nil_append] at hmid
  obtain ⟨hf, news, hqn, hnd, hprops, hout, hpushed⟩ := hmid
  have hf2 : ∀ t, st₂.f t = (countPending E (current :: P) t : Int) := by
    intro t
    have hp := hinv.pend t
    have hc := countPending_cons E P current t hcurP
    have hft := hf t
    rw [adjOf_count] at hft
    omega
  have hf2_nonneg : ∀ t, 0 ≤ st₂.f t := by
    intro t
    rw [hf2 t]
    exact Int.natCast_nonneg _
  have hrest_zero : ∀ u ∈ rest, st.f u = 0 := by
    intro u hu
    exact hinv.qzero u (by rw [hq]; exact List.mem_cons_of_mem _ hu)
  have hnews_pos : ∀ u ∈ news, (1 : Int) ≤ st.f u := fun u hn => (hprops u hn).1
  have hrest_nonews : ∀ u ∈ rest, u ∉ news := by
    intro u hu hn
    have h1 := hnews_pos u hn
    have h2 := hrest_zero u hu
    omega
  have hrest_d : ∀ u ∈ rest, st₂.d u = st.d u :=
    fun u hu => hout u (hrest_nonews u hu)
  have hnews_d : ∀ u ∈ news, st₂.d u = st.d current + 1 :=
    fun u hn => (hprops u hn).2.1
  have hhead : ∀ b ∈ rest, st.d current ≤ st.d b := by
    have hm := hinv.mono
    rw [hq] at hm
    exact (List.pairwise_cons.mp hm).1
  have hstays : ∀ u, st.f u = 0 → st₂.f u = 0 := by
    intro u h0
    have hp := hinv.pend u
    have hc := countPending_cons E P current u hcurP
    have := hf2 u
    omega
  have hnotmem_rest : current ∉ rest := by
    have hn := hinv.nodup
    rw [hq] at hn
    exact (List.nodup_cons.mp hn).1
  have hunres : ∀ u, st₂.f u ≠ 0 → st₂.d u = st.d u := by
    intro u hne
    refine hout u ?_
    intro hn
    have h1 := (hprops u hn).2.2
    have h2 := hf2_nonneg u
    omega
  refine ⟨⟨hf2, ?_, ?_, ?_, ?_, ?_, ?_⟩, ?_, ?_, ?_, hstays, hunres⟩
  · -- mono
    rw [hqn]
    refine List.pairwise_append.mpr ⟨?_, ?_, ?_⟩
    · have hm := hinv.mono
      rw [hq] at hm
      have hrp := (List.pairwise_cons.mp hm).2
      refine List.Pairwise.imp_of_mem ?_ hrp
      intro a b ha hb hle
      rw [hrest_d a ha, hrest_d b hb]
      exact hle
    · refine List.pairwise_of_forall_mem_list ?_
      intro a ha b hb
      rw [hnews_d a ha, hnews_d b hb]
    · intro a ha b hb
      rw [hrest_d a ha, hnews_d b hb]
      exact hinv.tight a (by rw [hq]; exact List.mem_cons_of_mem _ ha) current hcur_mem
  · -- tight
    intro a ha b hb
    rw [hqn] at ha hb
    rcases List.mem_append.mp ha with ha' | ha' <;>
      rcases List.mem_append.mp hb with hb' | hb'
    · rw [hrest_d a ha', hrest_d b hb']
      exact hinv.tight a (by rw [hq]; exact List.mem_cons_of_mem _ ha')
        b (by rw [hq]; exact List.mem_cons_of_mem _ hb')
    · rw [hrest_d a ha', hnews_d b hb']
      have := hinv.tight a (by rw [hq]; exact List.mem_cons_of_mem _ ha') current hcur_mem
      omega
    · rw [hnews_d a ha', hrest_d b hb']
      have := hhead b hb'
      omega
    · rw [hnews_d a ha', hnews_d b hb']
      omega
  · -- nodup
    rw [hqn]
    refine List.nodup_append.mpr ⟨?_, hnd, ?_⟩
    · have hn := hinv.nodup
      rw [hq] at hn
      exact (List.nodup_cons.mp hn).2
    · exact hrest_nonews
  · -- fresh
    intro u hu
    rw [hqn] at hu
    rcases List.mem_append.mp hu with hu' | hu'
    · intro hmem
      rcases List.mem_cons.mp hmem with he | he
      · exact hnotmem_rest (he ▸ hu')
      · exact hinv.fresh u (by rw [hq]; exact List.mem_cons_of_mem _ hu') he
    · intro hmem
      have h1 := hnews_pos u hu'
      rcases List.mem_cons.mp hmem with he | he
      · rw [he] at h1
        omega
      · have := hinv.pzero u he
        omega
  · -- qzero
    intro u hu
    rw [hqn] at hu
    rcases List.mem_append.mp hu with hu' | hu'
    · exact hstays u (hrest_zero u hu')
    · have h1 := (hprops u hu').2.2
      have h2 := hf2_nonneg u
      omega
  · -- pzero
    intro u hu
    rcases List.mem_cons.mp hu with he | he
    · exact hstays u (he ▸ hcur0)
    · exact hstays u (hinv.pzero u he)
  · -- depth stability for settled nodes
    intro u hle
    refine hout u ?_
    intro hn
    have := hnews_pos u hn
    omega
  · -- every queued depth at least the popped depth
    intro u hu
    rw [hqn] at hu
    rcases List.mem_append.mp hu with hu' | hu'
    · rw [hrest_d u hu']
      exact hhead u hu'
    · rw [hnews_d u hu']
      omega
  · -- freshly resolved nodes are queued one layer deeper
    intro t h0 hne
    have h1 : (1 : Int) ≤ st.f t := by
      have hp := hinv.pend t
      have : (0 : Int) ≤ st.f t := by rw [hp]; exact Int.natCast_nonneg _
      omega
    have htn : t ∈ news := hpushed t (by omega) h1
    exact ⟨by rw [hqn]; exact List.mem_append_right _ htn, hnews_d t htn⟩

/-! ## Running the loop -/

theorem kahnRun_succ_cons {adj : String → List String} {fuel : Nat} {st : KS}
    {current : String} {rest : List String} (hq : st.q = current :: rest) :
    kahnRun adj (fuel + 1) st =
      kahnRun adj fuel ((adj current).foldl (kahnChild current) ⟨st.f, st.d, rest⟩) := by
  obtain ⟨f, d, q⟩ := st
  dsimp only at hq
  subst hq
  rfl

theorem kahnRun_succ_nil {adj : String → List String} {fuel : Nat} {st : KS}
    (hq : st.q = []) : kahnRun adj (fuel + 1) st = st := by
  obtain ⟨f, d, q⟩ := st
  dsimp only at hq
  subst hq
  rfl

/-- A node whose indegree is already zero is never touched again: its
indegree stays zero and its depth never changes. -/
theorem kahnRun_zero_stable (E : List Edge) :
    ∀ (fuel : Nat) (P : List String) (st : KS) (u : String),
      Inv E P st → st.f u = 0 →
      (kahnRun (adjOf E) fuel st).f u = 0 ∧
      (kahnRun (adjOf E) fuel st).d u = st.d u := by
  intro fuel
  induction fuel with
  | zero => intro P st u hinv h0; exact ⟨h0, rfl⟩
  | succ fuel ih =>
    intro P st u hinv h0
    cases hq : st.q with
    | nil => rw [kahnRun_succ_nil hq]; exact ⟨h0, rfl⟩
    | cons current rest =>
      rw [kahnRun_succ_cons hq]
      obtain ⟨hinv₂, hdstab, hqd, hres, hstays, hunres⟩ := popInv hq rfl hinv
      have h2 := hstays u h0
      have hd2 := hdstab u (le_of_eq h0)
      have h3 := ih (current :: P) _ u hinv₂ h2
      exact ⟨h3.1, by rw [h3.2, hd2]⟩

/-- If a node is still unresolved and every queued node sits at depth at
least D, then when the run resolves it (ending with an empty queue) its
final depth is at least D + 1. -/
theorem kahnRun_resolve_depth (E : List Edge) :
    ∀ (fuel : Nat) (P : List String) (st : KS) (t : String) (D : Nat),
      Inv E P st → (∀ x ∈ st.q, D ≤ st.d x) → st.f t ≠ 0 →
      (kahnRun (adjOf E) fuel st).q = [] →
      (kahnRun (adjOf E) fuel st).f t = 0 →
      D + 1 ≤ (kahnRun (adjOf E) fuel st).d t := by
  intro fuel
  induction fuel with
  | zero =>
    intro P st t D hinv hD hne hqfin hffin
    exact absurd hffin hne
  | succ fuel ih =>
    intro P st t D hinv hD hne hqfin hffin
    cases hq : st.q with
    | nil =>
      rw [kahnRun_succ_nil hq] at hffin
      exact absurd hffin hne
    | cons current rest =>
      rw [kahnRun_succ_cons hq] at hqfin hffin ⊢
      obtain ⟨hinv₂, hdstab, hqd, hres, hstays, hunres⟩ := popInv hq rfl hinv
      have hcur : D ≤ st.d current := hD current (by rw [hq]; exact List.mem_cons_self _ _)
      by_cases h2 : ((adjOf E current).foldl (kahnChild current) ⟨st.f, st.d, rest⟩).f t = 0
      · obtain ⟨htq, htd⟩ := hres t h2 hne
        have hz := kahnRun_zero_stable E fuel (current :: P) _ t hinv₂ h2
        rw [hz.2, htd]
        omega
      · refine ih (current :: P) _ t D hinv₂ ?_ h2 hqfin hffin
        intro x hx
        have := hqd x hx
        omega

/-- The spine of claim C5: for an edge s → t with s still unprocessed,
if the run drains the queue and fully resolves t, then the final depth
of t exceeds the final depth of s. -/
theorem kahnRun_edge_depth (E : List Edge) :
    ∀ (fuel : Nat) (P : List String) (st : KS) (s t lab : String),
      Inv E P st → (s, t, lab) ∈ E → s ∉ P →
      (kahnRun (adjOf E) fuel st).q = [] →
      (kahnRun (adjOf E) fuel st).f t = 0 →
      (kahnRun (adjOf E) fuel st).d s + 1 ≤ (kahnRun (adjOf E) fuel st).d t := by
  intro fuel
  induction fuel with
  | zero =>
    intro P st s t lab hinv hmem hsP hqfin hffin
    exfalso
    have hffin' : st.f t = 0 := hffin
    have hp := hinv.pend t
    have h1 := countPending_pos hmem hsP
    omega
  | succ fuel ih =>
    intro P st s t lab hinv hmem hsP hqfin hffin
    cases hq : st.q with
    | nil =>
      rw [kahnRun_succ_nil hq] at hffin
      exfalso
      have hp := hinv.pend t
      have h1 := countPending_pos hmem hsP
      omega
    | cons current rest =>
      rw [kahnRun_succ_cons hq] at hqfin hffin ⊢
      obtain ⟨hinv₂, hdstab, hqd, hres, hstays, hunres⟩ := popInv hq rfl hinv
      by_cases hs : s = current
      · subst hs
        have hs0 : st.f s = 0 := hinv.qzero s (by rw [hq]; exact List.mem_cons_self _ _)
        have hds2 := hdstab s (le_of_eq hs0)
        have hzs := kahnRun_zero_stable E fuel (s :: P) _ s hinv₂ (hstays s hs0)
        have hne : st.f t ≠ 0 := by
          have hp := hinv.pend t
          have h1 := countPending_pos hmem hsP
          omega
        by_cases h2 : ((adjOf E s).foldl (kahnChild s) ⟨st.f, st.d, rest⟩).f t = 0
        · obtain ⟨htq, htd⟩ := hres t h2 hne
          have hzt := kahnRun_zero_stable E fuel (s :: P) _ t hinv₂ h2
          rw [hzt.2, htd, hzs.2, hds2]
        · have hB := kahnRun_resolve_depth E fuel (s :: P) _ t (st.d s) hinv₂
            (fun x hx => hqd x hx) h2 hqfin hffin
          rw [hzs.2, hds2]
          exact hB
      · have hsP₂ : s ∉ current :: P := by
          intro hmem'
          rcases List.mem_cons.mp hmem' with he | he
          · exact hs he
          · exact hsP he
        exact ih (current :: P) _ s t lab hinv₂ hmem hsP₂ hqfin hffin

/-- The spine of claim C6: a node whose indegree never resolves to zero
keeps its initial depth. -/
theorem kahnRun_stuck_depth (E : List Edge) :
    ∀ (fuel : Nat) (P : List String) (st : KS) (u : String),
      Inv E P st → (kahnRun (adjOf E) fuel st).f u ≠ 0 →
      (kahnRun (adjOf E) fuel st).d u = st.d u := by
  intro fuel
  induction fuel with
  | zero => intro P st u hinv hne; rfl
  | succ fuel ih =>
    intro P st u hinv hne
    cases hq : st.q with
    | nil => rw [kahnRun_succ_nil hq]
    | cons current rest =>
      rw [kahnRun_succ_cons hq] at hne ⊢
      obtain ⟨hinv₂, hdstab, hqd, hres, hstays, hunres⟩ := popInv hq rfl hinv
      by_cases h2 : ((adjOf E current).foldl (kahnChild current) ⟨st.f, st.d, rest⟩).f u = 0
      · exact absurd (kahnRun_zero_stable E fuel (current :: P) _ u hinv₂ h2).1 hne
      · rw [ih (current :: P) _ u hinv₂ hne]
        exact hunres u h2

/-! ## The initial state of the loop -/

theorem foldlM_bump_keys (edges : List Edge) :
    ∀ (il il' : List (String × Int)),
      edges.foldlM (fun il e => bump il e.2.1) il = some il' →
      il'.map Prod.fst = il.map Prod.fst := by
  induction edges with
  | nil =>
    intro il il' h
    rw [List.foldlM_nil] at h
    cases h
    rfl
  | cons e es ih =>
    intro il il' h
    rw [List.foldlM_cons] at h
    cases hb : bump il e.2.1 with
    | none => rw [hb] at h; exact Option.noConfusion h
    | some il₁ =>
      rw [hb] at h
      rw [ih il₁ il' h, bump_keys hb]

theorem foldlM_bump_lookupD (edges : List Edge) :
    ∀ (il il' : List (String × Int)),
      edges.foldlM (fun il e => bump il e.2.1) il = some il' →
      ∀ u, (il'.lookup u).getD 0 =
        (il.lookup u).getD 0 + (countTargets edges u : Int) := by
  induction edges with
  | nil =>
    intro il il' h u
    rw [List.foldlM_nil] at h
    cases h
    simp [countTargets]
  | cons e es ih =>
    intro il il' h u
    rw [List.foldlM_cons] at h
    cases hb : bump il e.2.1 with
    | none => rw [hb] at h; exact Option.noConfusion h
    | some il₁ =>
      rw [hb] at h
      have h1 := ih il₁ il' (h : List.foldlM (fun il e => bump il e.2.1) il₁ es = some il') u
      have h2 := bump_lookupD hb u
      simp only [countTargets]
      by_cases hu : u = e.2.1
      · rw [h1, h2]
        simp only [hu, if_pos rfl]
        push_cast
        omega
      · have hu' : ¬e.2.1 = u := fun hh => hu hh.symm
        rw [h1, h2]
        simp only [if_neg hu, if_neg hu']
        push_cast
        omega

theorem foldlM_bump_isSome (edges : List Edge) :
    ∀ (il : List (String × Int)),
      (edges.foldlM (fun il e => bump il e.2.1) il).isSome ↔
        ∀ e ∈ edges, e.2.1 ∈ il.map Prod.fst := by
  induction edges with
  | nil => intro il; simp [List.foldlM_nil]
  | cons e es ih =>
    intro il
    rw [List.foldlM_cons]
    cases hb : bump il e.2.1 with
    | none =>
      have hmem : e.2.1 ∉ il.map Prod.fst := by
        rw [← bump_isSome il e.2.1, hb]
        simp
      have h0 : (none >>= fun init =>
          List.foldlM (fun il e => bump il e.2.1) init es) = (none : Option (List (String × Int))) := rfl
      rw [h0]
      constructor
      · intro h
        simp at h
      · intro h
        exact absurd (h e (List.mem_cons_self _ _)) hmem
    | some il₁ =>
      have hmem : e.2.1 ∈ il.map Prod.fst := by
        rw [← bump_isSome il e.2.1, hb]
        simp
      have h0 : (some il₁ >>= fun init =>
          List.foldlM (fun il e => bump il e.2.1) init es) =
          List.foldlM (fun il e => bump il e.2.1) il₁ es := rfl
      rw [h0, ih il₁, bump_keys hb]
      constructor
      · intro h e' he'
        rcases List.mem_cons.mp he' with he' | he'
        · rw [he']; exact hmem
        · exact h e' he'
      · intro h e' he'
        exact h e' (List.mem_cons_of_mem _ he')

theorem buildIndeg_keys {nodes : List String} {edges : List Edge}
    {il : List (String × Int)} (h : buildIndeg nodes edges = some il) :
    il.map Prod.fst = nodes := by
  have h1 := foldlM_bump_keys edges _ il h
  rw [h1, List.map_map]
  have h2 : (Prod.fst ∘ fun n : String => (n, (0 : Int))) = id := funext (fun n => rfl)
  rw [h2, List.map_id]

theorem lookupD_init_zero (nodes : List String) (u : String) :
    (((nodes.map (fun n => (n, (0 : Int)))).lookup u).getD 0) = 0 := by
  induction nodes with
  | nil => rfl
  | cons n ns ih =>
    simp only [List.map_cons]
    by_cases hu : u = n
    · rw [lookup_cons_eq hu]
      rfl
    · rw [lookup_cons_ne hu]
      exact ih

theorem buildIndeg_lookupD {nodes : List String} {edges : List Edge}
    {il : List (String × Int)} (h : buildIndeg nodes edges = some il)
    (u : String) : (il.lookup u).getD 0 = (countTargets edges u : Int) := by
  have h1 := foldlM_bump_lookupD edges _ il h u
  rw [h1, lookupD_init_zero]
  omega

theorem buildIndeg_isSome (nodes : List String) (edges : List Edge) :
    (buildIndeg nodes edges).isSome ↔ ∀ e ∈ edges, e.2.1 ∈ nodes := by
  unfold buildIndeg
  rw [foldlM_bump_isSome edges _]
  have h2 : (nodes.map (fun n => (n, (0 : Int)))).map Prod.fst = nodes := by
    rw [List.map_map]
    have h3 : (Prod.fst ∘ fun n : String => (n, (0 : Int))) = id := funext (fun n => rfl)
    rw [h3, List.map_id]
  rw [h2]

theorem lookup_of_mem_nodup {β : Type} :
    ∀ {il : List (String × β)} {k : String} {v : β},
      (il.map Prod.fst).Nodup → (k, v) ∈ il → il.lookup k = some v := by
  intro il
  induction il with
  | nil => intro k v _ hm; cases hm
  | cons p rest ih =>
    intro k v hnd hm
    obtain ⟨pk, pv⟩ := p
    rcases List.mem_cons.mp hm with he | he
    · cases he
      exact lookup_cons_eq rfl
    · have hk : ¬k = pk := by
        intro hkk
        subst hkk
        have h1 : k ∈ rest.map Prod.fst :=
          List.mem_map.mpr ⟨(k, v), he, rfl⟩
        rw [List.map_cons] at hnd
        exact (List.nodup_cons.mp hnd).1 h1
      rw [lookup_cons_ne hk]
      rw [List.map_cons] at hnd
      exact ih (List.nodup_cons.mp hnd).2 he

/-- The state compute_layout starts the Kahn loop from satisfies the
invariant with nothing processed. -/
theorem initInv {nodes : List String} {edges : List Edge}
    {il : List (String × Int)} (hnd : nodes.Nodup)
    (hil : buildIndeg nodes edges = some il) :
    Inv edges [] (initKS il) := by
  have hkeys := buildIndeg_keys hil
  refine ⟨?_, ?_, ?_, ?_, ?_, ?_, ?_⟩
  · intro t
    show (il.lookup t).getD 0 = (countPending edges [] t : Int)
    rw [buildIndeg_lookupD hil t, countPending_nil]
  · exact List.pairwise_of_forall_mem_list (fun a _ b _ => le_refl _)
  · intro a _ b _
    exact Nat.le_succ_of_le (Nat.zero_le _)
  · have hsub : ((il.filter (fun p => p.2 == 0)).map Prod.fst).Sublist
        (il.map Prod.fst) := (List.filter_sublist il).map Prod.fst
    exact List.Nodup.sublist hsub (hkeys ▸ hnd)
  · intro u _ hu
    cases hu
  · intro u hu
    have hu' : u ∈ (il.filter (fun p => p.2 == 0)).map Prod.fst := hu
    obtain ⟨p, hp, hpe⟩ := List.mem_map.mp hu'
    obtain ⟨pk, pv⟩ := p
    have hpl := List.mem_filter.mp hp
    have hv : pv = 0 := by simpa using hpl.2
    have hl : il.lookup pk = some pv := lookup_of_mem_nodup (hkeys ▸ hnd) hpl.1
    show (il.lookup u).getD 0 = 0
    dsimp only at hpe
    rw [← hpe, hl, hv]
    rfl
  · intro u hu
    cases hu

/-! ## Placement lemmas -/

theorem lexLe_total : ∀ a b : List Char, lexLe a b = true ∨ lexLe b a = true := by
  intro a
  induction a with
  | nil => intro b; left; rfl
  | cons c as ih =>
    intro b
    cases b with
    | nil => right; rfl
    | cons c' bs =>
      unfold lexLe
      rcases Nat.lt_trichotomy c.toNat c'.toNat with hlt | heq | hgt
      · left
        rw [if_pos hlt]
      · rcases ih bs with h | h
        · left
          rw [if_neg (by omega), if_neg (by omega)]
          exact h
        · right
          rw [if_neg (by omega), if_neg (by omega)]
          exact h
      · right
        rw [if_pos hgt]

theorem lexLe_trans : ∀ a b c : List Char,
    lexLe a b = true → lexLe b c = true → lexLe a c = true := by
  intro a
  induction a with
  | nil => intro b c _ _; rfl
  | cons x as ih =>
    intro b c hab hbc
    cases b with
    | nil =>
      unfold lexLe at hab
      exact Bool.noConfusion hab
    | cons y bs =>
      cases c with
      | nil =>
        unfold lexLe at hbc
        exact Bool.noConfusion hbc
      | cons z cs =>
        unfold lexLe at hab hbc ⊢
        by_cases hxy : x.toNat < y.toNat
        · by_cases hyz : y.toNat < z.toNat
          · rw [if_pos (by omega : x.toNat < z.toNat)]
          · by_cases hzy : z.toNat < y.toNat
            · rw [if_neg hyz, if_pos hzy] at hbc
              exact Bool.noConfusion hbc
            · rw [if_pos (by omega : x.toNat < z.toNat)]
        · by_cases hyx : y.toNat < x.toNat
          · rw [if_neg hxy, if_pos hyx] at hab
            exact Bool.noConfusion hab
          · rw [if_neg hxy, if_neg hyx] at hab
            by_cases hyz : y.toNat < z.toNat
            · rw [if_pos (by omega : x.toNat < z.toNat)]
            · by_cases hzy : z.toNat < y.toNat
              · rw [if_neg hyz, if_pos hzy] at hbc
                exact Bool.noConfusion hbc
              · rw [if_neg hyz, if_neg hzy] at hbc
                rw [if_neg (by omega : ¬x.toNat < z.toNat),
                  if_neg (by omega : ¬z.toNat < x.toNat)]
                exact ih bs cs hab hbc

theorem nodeR_total (d : String → Nat) : ∀ a b : String, nodeR d a b ∨ nodeR d b a := by
  intro a b
  unfold nodeR nodeLe
  by_cases hab : d a < d b
  · left
    simp [hab]
  · by_cases hba : d b < d a
    · right
      simp [hba]
    · have heq : d a = d b := by omega
      rcases lexLe_total a.data b.data with h | h
      · left
        simp [heq, strLe, h]
      · right
        simp [heq.symm, strLe, h]

theorem nodeR_trans (d : String → Nat) : ∀ a b c : String,
    nodeR d a b → nodeR d b c → nodeR d a c := by
  intro a b c hab hbc
  unfold nodeR nodeLe at hab hbc ⊢
  simp only [Bool.or_eq_true, Bool.and_eq_true, decide_eq_true_eq, beq_iff_eq] at hab hbc ⊢
  rcases hab with hab | ⟨hab1, hab2⟩
  · rcases hbc with hbc | ⟨hbc1, hbc2⟩
    · left; omega
    · left; omega
  · rcases hbc with hbc | ⟨hbc1, hbc2⟩
    · left; omega
    · right
      exact ⟨hab1.trans hbc1, lexLe_trans _ _ _ hab2 hbc2⟩

/-- The keys of the placement list are the nodes it was given, in
order. -/
theorem placeAux_fst (direction : String) (d : String → Nat) :
    ∀ (ns : List String) (lc : Nat → Nat),
      (placeAux direction d lc ns).map Prod.fst = ns := by
  intro ns
  induction ns with
  | nil => intro lc; rfl
  | cons n rest ih =>
    intro lc
    simp only [placeAux, List.map_cons]
    rw [ih]

/-- Looking a node up in the placement list: its position is determined
by its depth and the number of same-depth nodes before it, offset by
the incoming layer counters. -/
theorem placeAux_lookup (direction : String) (d : String → Nat) :
    ∀ (ns : List String) (lc : Nat → Nat), ns.Nodup → ∀ n ∈ ns,
      (placeAux direction d lc ns).lookup n =
        some (posOf direction (d n)
          (lc (d n) + (ns.take (ns.indexOf n)).countP (fun m => d m == d n))) := by
  intro ns
  induction ns with
  | nil => intro lc _ n hn; cases hn
  | cons a rest ih =>
    intro lc hnd n hn
    rcases List.mem_cons.mp hn with he | he
    · subst he
      simp only [placeAux]
      rw [lookup_cons_eq rfl, List.indexOf_cons_self, List.take_zero]
      simp
    · have hne : n ≠ a := by
        intro hh
        subst hh
        exact (List.nodup_cons.mp hnd).1 he
      simp only [placeAux]
      rw [lookup_cons_ne hne,
        ih _ (List.nodup_cons.mp hnd).2 n he,
        List.indexOf_cons_ne _ (fun hh => hne hh.symm)]
      have htake : (a :: rest).take (rest.indexOf n).succ = a :: rest.take (rest.indexOf n) :=
        rfl
      rw [htake, List.countP_cons]
      by_cases hda : d n = d a
      · rw [if_pos hda, if_pos (by simp [hda])]
        simp only [Option.some.injEq]
        congr 1
        omega
      · rw [if_neg hda, if_neg (by simp; exact fun hh => hda hh.symm)]
        simp only [Option.some.injEq]
        congr 1
/-! ## Serializer lemmas -/

theorem lookup_isSome_iff_keys {β : Type} :
    ∀ (il : List (String × β)) (s : String),
      (il.lookup s).isSome = true ↔ s ∈ il.map Prod.fst := by
  intro il
  induction il with
  | nil => intro s; simp [List.lookup]
  | cons p rest ih =>
    intro s
    obtain ⟨k, v⟩ := p
    by_cases hs : s = k
    · rw [lookup_cons_eq hs]
      simp [hs]
    · rw [lookup_cons_ne hs]
      rw [List.map_cons]
      simp only [List.mem_cons]
      rw [ih s]
      constructor
      · intro h; exact Or.inr h
      · intro h
        rcases h with h | h
        · exact absurd h hs
        · exact h

theorem lookup_mem_values {β : Type} :
    ∀ {il : List (String × β)} {s : String} {v : β},
      il.lookup s = some v → v ∈ il.map Prod.snd := by
  intro il
  induction il with
  | nil => intro s v h; cases h
  | cons p rest ih =>
    intro s v h
    obtain ⟨k, w⟩ := p
    by_cases hs : s = k
    · rw [lookup_cons_eq hs] at h
      cases h
      exact List.mem_cons_self _ _
    · rw [lookup_cons_ne hs] at h
      exact List.mem_cons_of_mem _ (ih h)

theorem cellIdMap_keys (nodes : List String) :
    (cellIdMap nodes).map Prod.fst = nodes := by
  unfold cellIdMap
  rw [List.map_map]
  have h : (Prod.fst ∘ fun p : Nat × String => (p.2, toString (2 + p.1))) =
      Prod.snd := funext (fun p => rfl)
  rw [h, List.enum_map_snd]


theorem edgeCells_eq (nodes : List String) (edges : List Edge) :
    edgeCells nodes edges = (edges.enumFrom 0).mapM (edgeCellOf nodes) := rfl

theorem mapM_edgeCell_isSome (nodes : List String) :
    ∀ (edges : List Edge) (k : Nat),
      ((edges.enumFrom k).mapM (edgeCellOf nodes)).isSome = true ↔
        ∀ e ∈ edges, e.1 ∈ nodes ∧ e.2.1 ∈ nodes := by
  intro edges
  induction edges with
  | nil =>
    intro k
    constructor
    · intro _ e he
      cases he
    · intro _
      rfl
  | cons e es ih =>
    intro k
    rw [List.enumFrom_cons, List.mapM_cons]
    cases hs : (cellIdMap nodes).lookup e.1 with
    | none =>
      have hmem : e.1 ∉ nodes := by
        rw [← cellIdMap_keys nodes, ← lookup_isSome_iff_keys, hs]
        simp
      have hcell : edgeCellOf nodes (k, e) = none := by
        unfold edgeCellOf
        rw [hs]
      rw [hcell]
      constructor
      · intro h; simp at h
      · intro h
        exact absurd (h e (List.mem_cons_self _ _)).1 hmem
    | some sc =>
      cases ht : (cellIdMap nodes).lookup e.2.1 with
      | none =>
        have hmem : e.2.1 ∉ nodes := by
          rw [← cellIdMap_keys nodes, ← lookup_isSome_iff_keys, ht]
          simp
        have hcell : edgeCellOf nodes (k, e) = none := by
          unfold edgeCellOf
          rw [hs, ht]
        rw [hcell]
        constructor
        · intro h; simp at h
        · intro h
          exact absurd (h e (List.mem_cons_self _ _)).2 hmem
      | some tc =>
        have hsm : e.1 ∈ nodes := by
          rw [← cellIdMap_keys nodes, ← lookup_isSome_iff_keys, hs]
          rfl
        have htm : e.2.1 ∈ nodes := by
          rw [← cellIdMap_keys nodes, ← lookup_isSome_iff_keys, ht]
          rfl
        have hcell : edgeCellOf nodes (k, e) =
            some (Cell.edgeC (toString (2 + nodes.length + k)) e.2.2 edgeStyle
              "1" sc tc) := by
          unfold edgeCellOf
          rw [hs, ht]
        rw [hcell]
        cases hm : (es.enumFrom (k + 1)).mapM (edgeCellOf nodes) with
        | none =>
          have h1 := ih (k + 1)
          rw [hm] at h1
          simp only [Option.isSome_none] at h1
          constructor
          · intro h; simp [hm] at h
          · intro h
            exfalso
            have h2 : ∀ e' ∈ es, e'.1 ∈ nodes ∧ e'.2.1 ∈ nodes :=
              fun e' he' => h e' (List.mem_cons_of_mem _ he')
            exact Bool.noConfusion (h1.mpr h2)
        | some cells =>
          have h1 := ih (k + 1)
          rw [hm] at h1
          simp only [Option.isSome_some] at h1
          constructor
          · intro _ e' he'
            rcases List.mem_cons.mp he' with he' | he'
            · subst he'
              exact ⟨hsm, htm⟩
            · exact (h1.mp trivial) e' he'
          · intro _
            simp [hm]

theorem mapM_edgeCell_spec (nodes : List String) :
    ∀ (edges : List Edge) (k : Nat) (out : List Cell),
      (edges.enumFrom k).mapM (edgeCellOf nodes) = some out →
      out.length = edges.length ∧
      ∀ c ∈ out, ∃ cid lab sc tc,
        c = Cell.edgeC cid lab edgeStyle "1" sc tc ∧
        sc ∈ (cellIdMap nodes).map Prod.snd ∧
        tc ∈ (cellIdMap nodes).map Prod.snd := by
  intro edges
  induction edges with
  | nil =>
    intro k out h
    rw [show ([] : List Edge).enumFrom k = [] from rfl] at h
    cases h
    exact ⟨rfl, fun c hc => absurd hc (List.not_mem_nil c)⟩
  | cons e es ih =>
    intro k out h
    rw [List.enumFrom_cons, List.mapM_cons] at h
    cases hc : edgeCellOf nodes (k, e) with
    | none => rw [hc] at h; exact Option.noConfusion h
    | some c0 =>
      rw [hc] at h
      cases hm : (es.enumFrom (k + 1)).mapM (edgeCellOf nodes) with
      | none => rw [hm] at h; exact Option.noConfusion h
      | some cells =>
        rw [hm] at h
        have h2 : c0 :: cells = out :=
          Option.some.inj (h : (some (c0 :: cells) : Option (List Cell)) = some out)
        subst h2
        obtain ⟨hlen, hall⟩ := ih (k + 1) cells hm
        constructor
        · simp [hlen]
        · intro c hcmem
          rcases List.mem_cons.mp hcmem with he | he
          · subst he
            unfold edgeCellOf at hc
            cases hs : (cellIdMap nodes).lookup e.1 with
            | none => rw [hs] at hc; exact Option.noConfusion hc
            | some sc =>
              cases ht : (cellIdMap nodes).lookup e.2.1 with
              | none => rw [hs, ht] at hc; exact Option.noConfusion hc
              | some tc =>
                rw [hs, ht] at hc
                cases hc
                exact ⟨_, _, sc, tc, rfl, lookup_mem_values hs,
                  lookup_mem_values ht⟩
          · exact hall c he

theorem edgeCells_isSome (nodes : List String) (edges : List Edge) :
    (edgeCells nodes edges).isSome = true ↔
      ∀ e ∈ edges, e.1 ∈ nodes ∧ e.2.1 ∈ nodes := by
  rw [edgeCells_eq]
  exact mapM_edgeCell_isSome nodes edges 0

theorem nodeCells_length (nodes : List String)
    (coords : List (String × Nat × Nat)) :
    (nodeCells nodes coords).length = nodes.length := by
  unfold nodeCells
  rw [List.length_map, List.enum_length]

theorem nodeCells_vertex {nodes : List String}
    {coords : List (String × Nat × Nat)} :
    ∀ c ∈ nodeCells nodes coords, c.isVertex = true := by
  intro c hc
  obtain ⟨p, _, hpe⟩ := List.mem_map.mp hc
  rw [← hpe]
  rfl

theorem nodeCells_not_edge {nodes : List String}
    {coords : List (String × Nat × Nat)} :
    ∀ c ∈ nodeCells nodes coords, c.isEdgeCell = false := by
  intro c hc
  obtain ⟨p, _, hpe⟩ := List.mem_map.mp hc
  rw [← hpe]
  rfl

/-- Every cell id the node-cell map can return is the id of some vertex
cell of the document. -/
theorem nodeCells_covers (nodes : List String)
    (coords : List (String × Nat × Nat)) :
    ∀ v ∈ (cellIdMap nodes).map Prod.snd,
      ∃ c ∈ nodeCells nodes coords, c.isVertex = true ∧ c.cid = v := by
  intro v hv
  unfold cellIdMap at hv
  rw [List.map_map] at hv
  obtain ⟨p, hp, hpe⟩ := List.mem_map.mp hv
  refine ⟨_, List.mem_map.mpr ⟨p, hp, rfl⟩, rfl, ?_⟩
  simpa using hpe

theorem buildDoc_isSome (nodes : List String) (edges : List Edge)
    (coords : List (String × Nat × Nat)) :
    (buildDoc nodes edges coords).isSome = true ↔
      ∀ e ∈ edges, e.1 ∈ nodes ∧ e.2.1 ∈ nodes := by
  unfold buildDoc
  cases he : edgeCells nodes edges with
  | none =>
    have h1 := edgeCells_isSome nodes edges
    rw [he] at h1
    simp only [Option.isSome_none] at h1 ⊢
    constructor
    · intro h
      exact Bool.noConfusion h
    · intro h
      exact Bool.noConfusion (h1.mpr h)
  | some ec =>
    have h1 := edgeCells_isSome nodes edges
    rw [he] at h1
    simp only [Option.isSome_some] at h1
    simp only [Option.isSome_some, true_iff]
    exact h1.mp trivial

/-- The structural facts of claim C8 about the built document: vertex
cells count the nodes, edge cells count the edges, and every edge cell
points at ids of vertex cells of the same document. -/
theorem buildDoc_spec {nodes : List String} {edges : List Edge}
    {coords : List (String × Nat × Nat)} {cells : List Cell}
    (h : buildDoc nodes edges coords = some cells) :
    cells.countP Cell.isVertex = nodes.length ∧
    cells.countP Cell.isEdgeCell = edges.length ∧
    ∀ cid lab sty pr sr tg, Cell.edgeC cid lab sty pr sr tg ∈ cells →
      (∃ c' ∈ cells, c'.isVertex = true ∧ c'.cid = sr) ∧
      (∃ c' ∈ cells, c'.isVertex = true ∧ c'.cid = tg) := by
  unfold buildDoc at h
  cases he : edgeCells nodes edges with
  | none =>
    rw [he] at h
    exact Option.noConfusion h
  | some ec =>
    rw [he] at h
    have hcells : Cell.layer "0" none :: Cell.layer "1" (some "0") ::
        (nodeCells nodes coords ++ ec) = cells := Option.some.inj h
    obtain ⟨hlen, hall⟩ := mapM_edgeCell_spec nodes edges 0 ec (edgeCells_eq nodes edges ▸ he)
    have hvx : (nodeCells nodes coords).countP Cell.isVertex =
        (nodeCells nodes coords).length :=
      List.countP_eq_length.mpr nodeCells_vertex
    have hvx0 : ec.countP Cell.isVertex = 0 := by
      refine List.countP_eq_zero.mpr ?_
      intro c hc
      obtain ⟨cid, lab, sc, tc, hce, _, _⟩ := hall c hc
      rw [hce]
      simp [Cell.isVertex]
    have hec : ec.countP Cell.isEdgeCell = ec.length :=
      List.countP_eq_length.mpr (by
        intro c hc
        obtain ⟨cid, lab, sc, tc, hce, _, _⟩ := hall c hc
        rw [hce]
        rfl)
    have hec0 : (nodeCells nodes coords).countP Cell.isEdgeCell = 0 :=
      List.countP_eq_zero.mpr (by
        intro c hc
        rw [nodeCells_not_edge c hc]
        exact Bool.noConfusion)
    refine ⟨?_, ?_, ?_⟩
    · rw [← hcells]
      rw [List.countP_cons, List.countP_cons, List.countP_append, hvx, hvx0,
        nodeCells_length]
      simp [Cell.isVertex]
    · rw [← hcells]
      rw [List.countP_cons, List.countP_cons, List.countP_append, hec, hec0, hlen]
      simp [Cell.isEdgeCell]
    · intro cid lab sty pr sr tg hmem
      rw [← hcells] at hmem
      have hmem' : Cell.edgeC cid lab sty pr sr tg ∈ nodeCells nodes coords ++ ec := by
        rcases List.mem_cons.mp hmem with h1 | h1
        · exact Cell.noConfusion h1
        · rcases List.mem_cons.mp h1 with h2 | h2
          · exact Cell.noConfusion h2
          · exact h2
      have hmem'' : Cell.edgeC cid lab sty pr sr tg ∈ ec := by
        rcases List.mem_append.mp hmem' with h1 | h1
        · have := nodeCells_vertex _ h1
          exact Bool.noConfusion this
        · exact h1
      obtain ⟨cid', lab', sc, tc, hce, hsc, htc⟩ := hall _ hmem''
      have hsr : sr = sc := by
        injection hce with h1 h2 h3 h4 h5 h6
      have htg : tg = tc := by
        injection hce with h1 h2 h3 h4 h5 h6
      constructor
      · obtain ⟨c', hc', hv, hid⟩ := nodeCells_covers nodes coords sc hsc
        refine ⟨c', ?_, hv, by rw [hid, hsr]⟩
        rw [← hcells]
        exact List.mem_cons_of_mem _ (List.mem_cons_of_mem _
          (List.mem_append_left _ hc'))
      · obtain ⟨c', hc', hv, hid⟩ := nodeCells_covers nodes coords tc htc
        refine ⟨c', ?_, hv, by rw [hid, htg]⟩
        rw [← hcells]
        exact List.mem_cons_of_mem _ (List.mem_cons_of_mem _
          (List.mem_append_left _ hc'))

/-- compute_layout succeeds whenever every edge target is a node. -/
theorem compute_layout_isSome (nodes : List String) (edges : List Edge)
    (direction : String) (h : ∀ e ∈ edges, e.2.1 ∈ nodes) :
    (compute_layout nodes edges direction).isSome = true := by
  unfold compute_layout
  split
  · rfl
  · cases hb : buildIndeg nodes edges with
    | none =>
      have h1 := buildIndeg_isSome nodes edges
      rw [hb] at h1
      simp only [Option.isSome_none] at h1
      exact Bool.noConfusion (h1.mpr h)
    | some il => rfl

/-- The full pipeline never fails: the parser registers every edge
endpoint as a node, so both the layout dict build and the serializer
lookups succeed. -/
theorem mermaid_to_drawio_isSome (deflate b64encode : String → String)
    (input : String) :
    (mermaid_to_drawio deflate b64encode input).isSome = true := by
  unfold mermaid_to_drawio
  dsimp only
  have hok := parse_mermaid_edgeOk input
  have hcl := compute_layout_isSome (parse_mermaid input).nodes
    (parse_mermaid input).edges (parse_mermaid input).direction
    (fun e he => (hok e he).2)
  cases hc : compute_layout (parse_mermaid input).nodes
      (parse_mermaid input).edges (parse_mermaid input).direction with
  | none =>
    rw [hc] at hcl
    exact Bool.noConfusion hcl
  | some coords =>
    dsimp only
    have hbd := (buildDoc_isSome (parse_mermaid input).nodes
      (parse_mermaid input).edges coords).mpr hok
    cases hd : buildDoc (parse_mermaid input).nodes
        (parse_mermaid input).edges coords with
    | none =>
      rw [hd] at hbd
      exact Bool.noConfusion hbd
    | some cells => rfl

/-! ## Claim theorems -/

/-- C1: parse_mermaid is total for every input text (it is a total Lean
function; malformed lines fall through to the standalone-node branch),
and in its result every edge's source id and target id are members of
the returned node set. -/
theorem claim_C1 (input : String) :
    ∀ e ∈ (parse_mermaid input).edges,
      e.1 ∈ (parse_mermaid input).nodes ∧
      e.2.1 ∈ (parse_mermaid input).nodes :=
  fun e he => parse_mermaid_edgeOk input e he

theorem claim_C1_witness :
    ("A", "B", "") ∈ (parse_mermaid "A --> B").edges ∧
      "A" ∈ (parse_mermaid "A --> B").nodes ∧
      "B" ∈ (parse_mermaid "A --> B").nodes :=
  ⟨by decide, claim_C1 "A --> B" ("A", "B", "") (by decide)⟩

/-- C2 as stated is false: when the node set is nonempty and an edge
target is not a member of it, the in-degree build of compute_layout
raises KeyError (modelled as none) instead of never failing. -/
theorem claim_C2_counterexample :
    compute_layout ["A"] [("A", "B", "x")] "TD" = none := by decide

/-- C2 amended: compute_layout returns the empty mapping on an empty
node set (even when edges are present), and it succeeds exactly when
the node set is empty or every edge's target id is a member of the node
set; a target outside a nonempty node set makes the in-degree build
fail. -/
theorem claim_C2 (nodes : List String) (edges : List Edge)
    (direction : String) :
    (nodes = [] → compute_layout nodes edges direction = some []) ∧
    ((compute_layout nodes edges direction).isSome = true ↔
      nodes = [] ∨ ∀ e ∈ edges, e.2.1 ∈ nodes) := by
  constructor
  · intro h
    subst h
    rfl
  · by_cases hnil : nodes = []
    · subst hnil
      constructor
      · intro _
        exact Or.inl rfl
      · intro _
        rfl
    · have hemp : nodes.isEmpty = false := by
        cases hn : nodes with
        | nil => exact absurd hn hnil
        | cons a l => rfl
      unfold compute_layout
      rw [hemp]
      simp only [Bool.false_eq_true, if_false]
      cases hb : buildIndeg nodes edges with
      | none =>
        have h1 := buildIndeg_isSome nodes edges
        rw [hb] at h1
        simp only [Option.isSome_none] at h1
        constructor
        · intro h
          exact Bool.noConfusion h
        · intro h
          rcases h with h | h
          · exact absurd h hnil
          · exact Bool.noConfusion (h1.mpr h)
      | some il =>
        have h1 := buildIndeg_isSome nodes edges
        rw [hb] at h1
        constructor
        · intro _
          exact Or.inr (h1.mp rfl)
        · intro _
          rfl

theorem claim_C2_witness :
    compute_layout [] [("A", "B", "x")] "TD" = some [] ∧
      (compute_layout ["A", "B"] [("A", "B", "x")] "TD").isSome = true :=
  ⟨(claim_C2 [] [("A", "B", "x")] "TD").1 rfl,
   (claim_C2 ["A", "B"] [("A", "B", "x")] "TD").2.mpr (Or.inr (by decide))⟩

/-- C3: the pipeline is a deterministic pure function of the input
text: with the same codec collaborators, two calls on identical text
return identical encoded output strings. -/
theorem claim_C3 (deflate b64encode : String → String) (a b : String)
    (h : a = b) :
    mermaid_to_drawio deflate b64encode a =
      mermaid_to_drawio deflate b64encode b := by
  rw [h]

theorem claim_C3_witness :
    mermaid_to_drawio id id "A --> B" = mermaid_to_drawio id id "A --> B" :=
  claim_C3 id id "A --> B" "A --> B" rfl

/-- C9: on the input "graph TD\nA --> B\nB -- yes --> C" the parser
returns nodes A, B, C, exactly the edges (A,B,"") and (B,C,"yes") in
that order, and direction TD; the layout gives depths A=0, B=1, C=2 and
positions A=(0,0), B=(0,200), C=(0,400). -/
theorem claim_C9 :
    parse_mermaid "graph TD\nA --> B\nB -- yes --> C" =
      ⟨["A", "B", "C"], [("A", "B", ""), ("B", "C", "yes")], "TD"⟩ ∧
    layoutDepth ["A", "B", "C"] [("A", "B", ""), ("B", "C", "yes")] "A" = 0 ∧
    layoutDepth ["A", "B", "C"] [("A", "B", ""), ("B", "C", "yes")] "B" = 1 ∧
    layoutDepth ["A", "B", "C"] [("A", "B", ""), ("B", "C", "yes")] "C" = 2 ∧
    compute_layout ["A", "B", "C"] [("A", "B", ""), ("B", "C", "yes")] "TD" =
      some [("A", (0, 0)), ("B", (0, 200)), ("C", (0, 400))] := by
  refine ⟨by decide, by decide, by decide, by decide, by decide⟩

/-- C10: a trimmed line that is exactly the bare word "graph" is not a
direction declaration: parseLine only inserts "graph" as a standalone
node and leaves the direction (and everything else) unchanged; in
particular parsing the sole line "graph" yields node set {"graph"},
no edges, and the default direction TD. -/
theorem claim_C10 :
    (∀ (acc : Flow) (rawLine : List Char),
      pyStrip rawLine = "graph".data →
      parseLine acc rawLine = { acc with nodes := addNode acc.nodes "graph" }) ∧
    parse_mermaid "graph" = ⟨["graph"], [], "TD"⟩ := by
  constructor
  · intro acc rawLine h
    unfold parseLine
    dsimp only
    rw [h]
    rw [if_neg (by decide), if_neg (by decide)]
    rfl
  · decide

theorem claim_C10_witness :
    parseLine ⟨[], [], "TD"⟩ "graph".data =
      { nodes := ["graph"], edges := [], direction := "TD" } := by
  rw [claim_C10.1 ⟨[], [], "TD"⟩ "graph".data (by decide)]
  decide

/-- C5: for a graph whose Kahn processing drains the queue and resolves
every node's in-degree to zero (the acyclic case), every edge (s, t, l)
satisfies depth(t) ≥ depth(s) + 1 in the depths compute_layout uses. -/
theorem claim_C5 {nodes : List String} {edges : List Edge}
    {il : List (String × Int)}
    (hnd : nodes.Nodup)
    (hil : buildIndeg nodes edges = some il)
    (hdrain : (layoutState nodes edges il).q = [])
    (hresolve : ∀ n ∈ nodes, (layoutState nodes edges il).f n = 0) :
    ∀ e ∈ edges,
      (layoutState nodes edges il).d e.1 + 1 ≤
        (layoutState nodes edges il).d e.2.1 := by
  intro e he
  have htmem : e.2.1 ∈ nodes := by
    have h1 := buildIndeg_isSome nodes edges
    rw [hil] at h1
    exact (h1.mp rfl) e he
  exact kahnRun_edge_depth edges nodes.length [] (initKS il) e.1 e.2.1 e.2.2
    (initInv hnd hil) he (by simp) hdrain (hresolve e.2.1 htmem)

theorem claim_C5_witness :
    (layoutState ["A", "B"] [("A", "B", "l")] [("A", 0), ("B", 1)]).d "A" + 1 ≤
      (layoutState ["A", "B"] [("A", "B", "l")] [("A", 0), ("B", 1)]).d "B" :=
  claim_C5 (by decide) (by decide) (by decide) (by decide)
    ("A", "B", "l") (by decide)

/-- C6: a node whose in-degree stays positive through the whole Kahn
pass is never pushed and keeps depth 0 (layer 0, next to true roots);
in particular on the cycle "A --> B\nB --> A" both nodes end at depth 0
with positions A=(0,0) and B=(200,0), and no error is raised. -/
theorem claim_C6 :
    (∀ (nodes : List String) (edges : List Edge) (il : List (String × Int))
      (n : String),
      nodes.Nodup → buildIndeg nodes edges = some il →
      0 < (layoutState nodes edges il).f n →
      (layoutState nodes edges il).d n = 0) ∧
    compute_layout ["A", "B"] [("A", "B", ""), ("B", "A", "")] "TD" =
      some [("A", (0, 0)), ("B", (200, 0))] := by
  constructor
  · intro nodes edges il n hnd hil hpos
    unfold layoutState at hpos ⊢
    have h := kahnRun_stuck_depth edges nodes.length [] (initKS il) n
      (initInv hnd hil) (by omega)
    rw [h]
    rfl
  · decide

theorem claim_C6_witness :
    (layoutState ["A", "B"] [("A", "B", ""), ("B", "A", "")]
      [("A", 1), ("B", 1)]).d "A" = 0 :=
  claim_C6.1 ["A", "B"] [("A", "B", ""), ("B", "A", "")] [("A", 1), ("B", 1)]
    "A" (by decide) (by decide) (by decide)

/-- C7: serialization fails exactly when some edge endpoint is missing
from the node-cell map (whose keys are the node set), and since the
parser registers every edge endpoint as a node, the failure branch is
unreachable: the full convert pipeline always succeeds. -/
theorem claim_C7 :
    (∀ (nodes : List String) (edges : List Edge)
      (coords : List (String × Nat × Nat)),
      buildDoc nodes edges coords = none ↔
        ∃ e ∈ edges, e.1 ∉ nodes ∨ e.2.1 ∉ nodes) ∧
    ∀ (deflate b64encode : String → String) (input : String),
      (mermaid_to_drawio deflate b64encode input).isSome = true := by
  constructor
  · intro nodes edges coords
    have h1 := buildDoc_isSome nodes edges coords
    constructor
    · intro h
      rw [h] at h1
      simp only [Option.isSome_none] at h1
      by_contra hne
      push_neg at hne
      exact Bool.noConfusion (h1.mpr hne)
    · intro hex
      obtain ⟨e, he, hbad⟩ := hex
      cases hd : buildDoc nodes edges coords with
      | none => rfl
      | some cells =>
        rw [hd] at h1
        have hall := h1.mp rfl
        rcases hbad with h | h
        · exact absurd (hall e he).1 h
        · exact absurd (hall e he).2 h
  · exact mermaid_to_drawio_isSome

theorem claim_C7_witness :
    buildDoc ["A"] [("A", "B", "")] [] = none ∧
      (mermaid_to_drawio id id "A --> B").isSome = true :=
  ⟨(claim_C7.1 ["A"] [("A", "B", "")] []).mpr
      ⟨("A", "B", ""), by decide, Or.inr (by decide)⟩,
   claim_C7.2 id id "A --> B"⟩

/-- C8: for every input, serialization returns the encoding of the
deflated markup of a document whose decoding (for any left-inverse
codec pair, which raw deflate/inflate and base64 are) restores that
markup, and in that document the number of vertex cells equals the
number of nodes, the number of edge cells equals the number of edges,
and every edge cell's source and target equal the id of some vertex
cell of the same document. -/
theorem claim_C8 (deflate b64encode inflate b64decode : String → String)
    (hinf : ∀ s, inflate (deflate s) = s)
    (hb64 : ∀ s, b64decode (b64encode s) = s)
    (input : String) :
    ∃ cells : List Cell,
      mermaid_to_drawio deflate b64encode input =
        some (b64encode (deflate (xmlString cells))) ∧
      inflate (b64decode (b64encode (deflate (xmlString cells)))) =
        xmlString cells ∧
      cells.countP Cell.isVertex = (parse_mermaid input).nodes.length ∧
      cells.countP Cell.isEdgeCell = (parse_mermaid input).edges.length ∧
      ∀ cid lab sty pr sr tg, Cell.edgeC cid lab sty pr sr tg ∈ cells →
        (∃ c' ∈ cells, c'.isVertex = true ∧ c'.cid = sr) ∧
        (∃ c' ∈ cells, c'.isVertex = true ∧ c'.cid = tg) := by
  have hok := parse_mermaid_edgeOk input
  have hcl := compute_layout_isSome (parse_mermaid input).nodes
    (parse_mermaid input).edges (parse_mermaid input).direction
    (fun e he => (hok e he).2)
  obtain ⟨coords, hc⟩ := Option.isSome_iff_exists.mp hcl
  have hbd := (buildDoc_isSome (parse_mermaid input).nodes
    (parse_mermaid input).edges coords).mpr hok
  obtain ⟨cells, hd⟩ := Option.isSome_iff_exists.mp hbd
  obtain ⟨hv, he, hres⟩ := buildDoc_spec hd
  refine ⟨cells, ?_, by rw [hb64, hinf], hv, he, hres⟩
  unfold mermaid_to_drawio
  dsimp only
  rw [hc]
  dsimp only
  rw [hd]

theorem claim_C8_witness :
    ∃ cells : List Cell,
      mermaid_to_drawio id id "A --> B" =
        some (id (id (xmlString cells))) ∧
      id (id (id (id (xmlString cells)))) = xmlString cells ∧
      cells.countP Cell.isVertex = (parse_mermaid "A --> B").nodes.length ∧
      cells.countP Cell.isEdgeCell = (parse_mermaid "A --> B").edges.length ∧
      ∀ cid lab sty pr sr tg, Cell.edgeC cid lab sty pr sr tg ∈ cells →
        (∃ c' ∈ cells, c'.isVertex = true ∧ c'.cid = sr) ∧
        (∃ c' ∈ cells, c'.isVertex = true ∧ c'.cid = tg) :=
  claim_C8 id id id id (fun _ => rfl) (fun _ => rfl) "A --> B"

/-- C4: the mapping returned by compute_layout places nodes exactly in
the order sorted by (depth ascending, node id lexicographically
ascending); the per-depth counter starts at 0, and each node's position
is (depth*200, counter*120) when the direction string is "LR" and
(counter*200, depth*200) for "TD" and every other direction token. -/
theorem claim_C4 {nodes : List String} {edges : List Edge}
    {direction : String} {coords : List (String × Nat × Nat)}
    (hnd : nodes.Nodup)
    (h : compute_layout nodes edges direction = some coords) :
    coords.map Prod.fst = sortedNodes nodes edges ∧
    (sortedNodes nodes edges).Perm nodes ∧
    (sortedNodes nodes edges).Pairwise (nodeR (layoutDepth nodes edges)) ∧
    ∀ n ∈ nodes, coords.lookup n = some
      (if direction = "LR"
        then (layoutDepth nodes edges n * 200, layerOffset nodes edges n * 120)
        else (layerOffset nodes edges n * 200,
          layoutDepth nodes edges n * 200)) := by
  by_cases hnil : nodes = []
  · subst hnil
    have h2 : (some ([] : List (String × Nat × Nat)) : Option _) = some coords := h
    have h3 : coords = [] := (Option.some.inj h2).symm
    subst h3
    refine ⟨rfl, ?_, ?_, ?_⟩
    · exact List.Perm.refl _
    · exact List.Pairwise.nil
    · intro n hn
      cases hn
  · have hemp : nodes.isEmpty = false := by
      cases hn : nodes with
      | nil => exact absurd hn hnil
      | cons a l => rfl
    unfold compute_layout at h
    rw [hemp] at h
    simp only [Bool.false_eq_true, if_false] at h
    cases hb : buildIndeg nodes edges with
    | none =>
      rw [hb] at h
      exact Option.noConfusion h
    | some il =>
      rw [hb] at h
      have hcoords : coords = placeAux direction (layoutState nodes edges il).d
          (fun _ => 0)
          (List.insertionSort (nodeR (layoutState nodes edges il).d) nodes) :=
        (Option.some.inj h).symm
      have hdep : layoutDepth nodes edges = (layoutState nodes edges il).d := by
        unfold layoutDepth
        rw [hb]
      have hsort : sortedNodes nodes edges =
          List.insertionSort (nodeR (layoutState nodes edges il).d) nodes := by
        unfold sortedNodes
        rw [hdep]
      haveI : IsTotal String (nodeR ((layoutState nodes edges il).d)) :=
        ⟨nodeR_total _⟩
      haveI : IsTrans String (nodeR ((layoutState nodes edges il).d)) :=
        ⟨nodeR_trans _⟩
      have hperm : (List.insertionSort (nodeR ((layoutState nodes edges il).d))
          nodes).Perm nodes := List.perm_insertionSort _ nodes
      refine ⟨?_, ?_, ?_, ?_⟩
      · rw [hcoords, placeAux_fst, hsort]
      · rw [hsort]
        exact hperm
      · rw [hsort, hdep]
        exact List.sorted_insertionSort _ nodes
      · intro n hn
        have hnds : (List.insertionSort (nodeR ((layoutState nodes edges il).d))
            nodes).Nodup := hperm.symm.nodup hnd
        have hmem : n ∈ List.insertionSort
            (nodeR ((layoutState nodes edges il).d)) nodes :=
          hperm.mem_iff.mpr hn
        rw [hcoords,
          placeAux_lookup direction ((layoutState nodes edges il).d) _ _ hnds
            n hmem]
        have hoff : layerOffset nodes edges n =
            ((List.insertionSort (nodeR ((layoutState nodes edges il).d))
              nodes).take ((List.insertionSort
                (nodeR ((layoutState nodes edges il).d)) nodes).indexOf n)).countP
              (fun m => (layoutState nodes edges il).d m ==
                (layoutState nodes edges il).d n) := by
          unfold layerOffset
          rw [hsort, hdep]
        rw [Nat.zero_add, ← hoff, hdep]
        rfl

theorem claim_C4_witness :
    ([("A", (0, 0)), ("B", (0, 200))] : List (String × Nat × Nat)).map
        Prod.fst = sortedNodes ["A", "B"] [("A", "B", "")] ∧
    (sortedNodes ["A", "B"] [("A", "B", "")]).Perm ["A", "B"] ∧
    (sortedNodes ["A", "B"] [("A", "B", "")]).Pairwise
      (nodeR (layoutDepth ["A", "B"] [("A", "B", "")])) ∧
    ∀ n ∈ ["A", "B"],
      ([("A", (0, 0)), ("B", (0, 200))] : List (String × Nat × Nat)).lookup n =
        some (if "TD" = "LR"
          then (layoutDepth ["A", "B"] [("A", "B", "")] n * 200,
            layerOffset ["A", "B"] [("A", "B", "")] n * 120)
          else (layerOffset ["A", "B"] [("A", "B", "")] n * 200,
            layoutDepth ["A", "B"] [("A", "B", "")] n * 200)) :=
  claim_C4 (by decide) (by decide)

end MermaidDrawio
